import Mathlib

/-!
Verification of the deferred-island protocol core: symmetric authenticated
encryption with response-scoped keys, the island request validator, the
island encoder with its size-driven transport selection, the client runtime
emission, and the CSP digest primitive.  The executable definitions below are
modelled from the specification of these components; randomness (key material
and initialization vectors) is made explicit as `Nat` parameters, and the
authenticated cipher is idealized (the authentication tag is perfectly
binding), matching the specification's categorical fail-closed guarantees.
-/

/-- Little-endian base-`b` digit expansion of a natural number, computed with
explicit fuel so that every application reduces inside the kernel.  The fuel
is sufficient whenever it is at least the number being expanded. -/
def digitsFuel (b : Nat) : Nat → Nat → List Nat
  | 0, _ => []
  | f + 1, n => if n = 0 then [] else n % b :: digitsFuel b f (n / b)

/-- Canonical little-endian base-`b` digits of `n` (no trailing zero digit). -/
def natDigits (b n : Nat) : List Nat := digitsFuel b n n

/-- Value of a little-endian base-`b` digit list. -/
def ofDigits (b : Nat) : List Nat → Nat
  | [] => 0
  | d :: l => d + b * ofDigits b l

/-- A digit list is canonical when it is empty or its last digit is nonzero. -/
def canonDigits : List Nat → Bool
  | [] => true
  | [d] => decide (d ≠ 0)
  | _ :: d :: l => canonDigits (d :: l)

/-- Injective pairing on naturals, `mix a b = 2 ^ a * (2 * b + 1)`; it is
kernel-computable in both directions (unlike the square-root based pairing). -/
def mix (a b : Nat) : Nat := 2 ^ a * (2 * b + 1)

/-- Fuel-driven inverse of `mix`: repeatedly halve while even, counting the
halvings. -/
def unmixFuel : Nat → Nat → Nat × Nat
  | 0, _ => (0, 0)
  | f + 1, n =>
    if n % 2 = 1 then (0, n / 2)
    else ((unmixFuel f (n / 2)).1 + 1, (unmixFuel f (n / 2)).2)

/-- Inverse of `mix` (on its range). -/
def unmix (n : Nat) : Nat × Nat := unmixFuel n n

/-- Injective encoding of a character list as a natural number, built from the
`mix` pairing. -/
def listToNat : List Char → Nat
  | [] => 0
  | c :: cs => mix c.toNat (listToNat cs)

/-- Fuel-driven decoding of a natural number back into a character list. -/
def natToListFuel : Nat → Nat → List Char
  | 0, _ => []
  | f + 1, n =>
    if n = 0 then [] else Char.ofNat (unmix n).1 :: natToListFuel f (unmix n).2

/-- Decode a natural number into a string (left inverse of `strToNat`). -/
def natToStr (n : Nat) : String := String.mk (natToListFuel n n)

/-- Injective encoding of a string as a natural number. -/
def strToNat (s : String) : Nat := listToNat s.data

/-- Modelled from the spec: `createKey` of the missing Cipher module
(`core/encryption`) generates a fresh random symmetric key; the random source
is made explicit as the `entropy` argument. -/
def createKey (entropy : Nat) : Nat := entropy

/-- Modelled from the spec: the key- and IV-dependent keystream used by the
cipher; any injective-in-the-pair function serves the idealized model. -/
def keystream (key iv : Nat) : Nat := mix key iv

/-- Modelled from the spec: the authentication tag over `(key, iv, ct)`,
idealized as a perfectly binding commitment, so that tag verification fails
exactly when the key or the authenticated data differ. -/
def macTag (key iv ct : Nat) : Nat := mix key (mix iv ct)

/-- Serialization of one numeric field of the encoded payload: canonical
binary digits followed by the terminator byte `2`. -/
def encNat (n : Nat) : List Nat := natDigits 2 n ++ [2]

/-- Modelled from the spec: `encryptString` of the missing Cipher module.
The encoded payload is the random IV, the ciphertext (plaintext XOR
keystream) and the authentication tag, serialized over the byte alphabet
`{0, 1, 2}`.  The fresh random IV drawn on every call is explicit. -/
def encryptString (key iv : Nat) (plaintext : String) : List Nat :=
  encNat iv ++
    encNat (strToNat plaintext ^^^ keystream key iv) ++
      encNat (macTag key iv (strToNat plaintext ^^^ keystream key iv))

/-- Read one serialized field: bytes up to the first terminator `2`; any byte
other than `0`, `1`, `2` is rejected. -/
def takeField : List Nat → Option (List Nat × List Nat)
  | [] => none
  | d :: rest =>
    if d = 2 then some ([], rest)
    else if d ≤ 1 then
      match takeField rest with
      | some (f, r) => some (d :: f, r)
      | none => none
    else none

/-- Parse an encoded payload into its three fields (IV, ciphertext, tag),
rejecting trailing bytes and non-canonical digit strings. -/
def parse3 (s : List Nat) : Option (Nat × Nat × Nat) :=
  match takeField s with
  | none => none
  | some (f1, r1) =>
    match takeField r1 with
    | none => none
    | some (f2, r2) =>
      match takeField r2 with
      | none => none
      | some (f3, r3) =>
        if r3 = [] ∧ canonDigits f1 ∧ canonDigits f2 ∧ canonDigits f3 then
          some (ofDigits 2 f1, ofDigits 2 f2, ofDigits 2 f3)
        else none

/-- Modelled from the spec: `decryptString` of the missing Cipher module.
It fails (returns `none`, the CryptographicError) unless the payload parses
and its authentication tag verifies against the supplied key; it never
returns partial plaintext. -/
def decryptString (key : Nat) (payload : List Nat) : Option String :=
  match parse3 payload with
  | none => none
  | some (iv, ct, tag) =>
    if tag = macTag key iv ct then some (natToStr (ct ^^^ keystream key iv))
    else none

/-- Alteration of a single bit: XOR bit `i` into byte `j` of the payload. -/
def flipBit (s : List Nat) (j i : Nat) : List Nat :=
  s.set j (s.getD j 0 ^^^ 2 ^ i)

/-- Character used to render one payload byte (`0`, `1` or `2`). -/
def digitChar (d : Nat) : Char := Char.ofNat (48 + d)

/-- Numeric value of a rendered payload character. -/
def charDigit (c : Char) : Nat := c.toNat - 48

/-- Rendering of an encoded payload as a string over the alphabet `012`. -/
def renderChars (payload : List Nat) : String := String.mk (payload.map digitChar)

/-- Modelled from the spec: `encodeKey` of the missing Cipher module
serializes a key to a portable (never empty) string form. -/
def encodeKey (key : Nat) : String :=
  String.mk ((natDigits 2 key).map digitChar ++ [digitChar 2])

/-- Modelled from the spec: `decodeKey` of the missing Cipher module, the
lossless inverse of `encodeKey`. -/
def decodeKey (s : String) : Option Nat :=
  match takeField (s.data.map charDigit) with
  | some (f, r) => if r = [] ∧ canonDigits f then some (ofDigits 2 f) else none
  | none => none

/-- Hash algorithms accepted by the CSP digest primitive. -/
inductive CspAlgorithm where
  | sha256
  | sha384
  | sha512
deriving DecidableEq

/-- Lowercase token of each digest algorithm. -/
def algToken : CspAlgorithm → String
  | .sha256 => "sha256"
  | .sha384 => "sha384"
  | .sha512 => "sha512"

/-- Standard base64 digit alphabet. -/
def b64Char (d : Nat) : Char :=
  if d < 26 then Char.ofNat (65 + d)
  else if d < 52 then Char.ofNat (97 + (d - 26))
  else if d < 62 then Char.ofNat (48 + (d - 52))
  else if d = 62 then Char.ofNat 43
  else Char.ofNat 47

/-- Base64 rendering of a natural number. -/
def natB64 (n : Nat) : String := String.mk ((natDigits 64 n).map b64Char)

/-- Modelled from the spec: `generateCspDigest` of the missing Cipher module,
`digest(content, algorithm) = token ++ "-" ++ base64 digest`; the SHA hash is
idealized as an injective function of the content. -/
def generateCspDigest (alg : CspAlgorithm) (content : String) : String :=
  algToken alg ++ "-" ++ natB64 (strToNat content)

/-- Wire-level response returned by the island endpoint on failure. -/
structure EndpointResponse where
  status : Nat
  statusText : String
deriving DecidableEq

/-- Validated island request fields handed back to the caller. -/
structure RenderOptions where
  encryptedComponentExport : String
  encryptedProps : String
  encryptedSlots : String
deriving DecidableEq

/-- Modelled from the spec: the part of an HTTP request that the island
endpoint inspects - the method, the query parameters (a map where the empty
string is a value distinct from absence), and the JSON body parse result
(`none` for a body that fails to parse, otherwise the object's fields). -/
structure IslandRequestModel where
  method : String
  queryParam : String → Option String
  jsonFields : Option (List (String × String))

/-- Does the parsed JSON object carry the given key? -/
def hasKey (k : String) (fs : List (String × String)) : Bool :=
  fs.any (fun pr => pr.1 == k)

/-- Modelled from the spec: `getRequestData` of the missing island endpoint
(`core/server-islands/endpoint`).  GET requires the three query parameters
`e`, `p`, `s`; POST requires a JSON body with the three encrypted fields and
rejects plaintext aliases with a diagnostic naming the field; other methods
get 405. -/
def getRequestData (req : IslandRequestModel) : EndpointResponse ⊕ RenderOptions :=
  if req.method = "GET" then
    match req.queryParam "e", req.queryParam "p", req.queryParam "s" with
    | some e, some p, some s =>
      Sum.inr { encryptedComponentExport := e, encryptedProps := p, encryptedSlots := s }
    | _, _, _ =>
      Sum.inl { status := 400, statusText := "Bad request: missing required query parameters" }
  else if req.method = "POST" then
    match req.jsonFields with
    | none => Sum.inl { status := 400, statusText := "Bad request: malformed JSON body" }
    | some fs =>
      if hasKey "slots" fs then
        Sum.inl { status := 400,
                  statusText := "Bad request: plaintext slots rejected, expected encryptedSlots" }
      else if hasKey "componentExport" fs then
        Sum.inl { status := 400,
                  statusText := "Bad request: plaintext componentExport rejected, expected encryptedComponentExport" }
      else if hasKey "props" fs then
        Sum.inl { status := 400,
                  statusText := "Bad request: plaintext props rejected, expected encryptedProps" }
      else
        match List.lookup "encryptedComponentExport" fs, List.lookup "encryptedProps" fs,
            List.lookup "encryptedSlots" fs with
        | some e, some p, some s =>
          Sum.inr { encryptedComponentExport := e, encryptedProps := p, encryptedSlots := s }
        | _, _, _ =>
          Sum.inl { status := 400, statusText := "Bad request: missing encrypted fields" }
  else
    Sum.inl { status := 405, statusText := "Method not allowed" }

/-- Transport chosen for one island invocation. -/
structure IslandTransport where
  method : String
  url : String
  body : Option String
deriving DecidableEq

/-- JSON body carrying the three encrypted fields of a POST island request. -/
def jsonBody (eExp eProps eSlots : String) : String :=
  "\x7b\"encryptedComponentExport\":\"" ++ eExp ++ "\",\"encryptedProps\":\"" ++ eProps ++
    "\",\"encryptedSlots\":\"" ++ eSlots ++ "\"\x7d"

/-- Modelled from the spec: transport selection of the missing Island Encoder
(`runtime/server/render/server-islands`).  The encoded lengths of the three
ciphertexts are summed; below 2048 characters they travel as GET query
parameters on the island URL, otherwise as a POST JSON body. -/
def chooseTransport (islandUrl eExp eProps eSlots : String) : IslandTransport :=
  if eExp.length + eProps.length + eSlots.length < 2048 then
    { method := "GET",
      url := islandUrl ++ "?e=" ++ eExp ++ "&p=" ++ eProps ++ "&s=" ++ eSlots,
      body := none }
  else
    { method := "POST", url := islandUrl, body := some (jsonBody eExp eProps eSlots) }

/-- Modelled from the spec: `ServerIslandComponent.getIslandContent` of the
missing Island Encoder - the inline code that invokes the shared client
runtime with the chosen transport. -/
def getIslandContent (islandUrl eExp eProps eSlots : String) : String :=
  match chooseTransport islandUrl eExp eProps eSlots with
  | { method := _, url := u, body := none } =>
    "replaceServerIsland(fetch(\"" ++ u ++ "\"))"
  | { method := m, url := u, body := some b } =>
    "replaceServerIsland(fetch(\"" ++ u ++ "\", \x7b method: \"" ++ m ++
      "\", body: JSON.stringify(" ++ b ++ ") \x7d))"

/-- Serialization of the deferred (non-fallback) slot map before encryption. -/
def serializeSlots : List (String × String) → String
  | [] => ""
  | (n, v) :: rest => n ++ "=" ++ v ++ ";" ++ serializeSlots rest

/-- Modelled from the spec: `ServerIslandComponent.render` of the missing
Island Encoder.  It emits the start marker, inlines only the fallback slot,
and emits the island script whose ciphertexts carry the export name, the
user props and the serialized non-fallback slots, each under a distinct IV. -/
def renderServerIsland (key iv : Nat) (base name islandId componentExport props : String)
    (slots : List (String × String)) : String :=
  "<!--server-island-start-->" ++ ((List.lookup "fallback" slots).getD "") ++
    ("<script data-island-id=\"" ++ islandId ++ "\">" ++
      getIslandContent (base ++ "/_server-islands/" ++ name)
        (renderChars (encryptString key iv componentExport))
        (renderChars (encryptString key (iv + 1) props))
        (renderChars (encryptString key (iv + 2)
          (serializeSlots (slots.filter (fun pr => pr.1 != "fallback"))))) ++
      "</script>")

/-- Characters that the island render scaffolding (template literals, the
digit alphabet of rendered ciphertexts, and the transport templates) can
contribute to the output, independently of the user-controlled inputs. -/
def scaffoldChars : List Char :=
  ("<!--server-island-start-->" ++ "<script data-island-id=\"" ++ "\">" ++ "</script>" ++
    "replaceServerIsland(fetch(\"" ++ "\"))" ++ "\", \x7b method: \"" ++
    "\", body: JSON.stringify(" ++ ") \x7d))" ++ "/_server-islands/" ++ "?e=" ++ "&p=" ++
    "&s=" ++ "\x7b\"encryptedComponentExport\":\"" ++ "\",\"encryptedProps\":\"" ++
    "\",\"encryptedSlots\":\"" ++ "\"\x7d" ++ "GET" ++ "POST" ++ "012").data

/-- Substring test on character lists: does `pat` occur contiguously? -/
def listContains (pat : List Char) : List Char → Bool
  | [] => pat.isEmpty
  | c :: t => pat.isPrefixOf (c :: t) || listContains pat t

/-- Modelled from the spec: the static source of the missing client runtime
(`server-islands` runtime script).  It exposes `replaceServerIsland`, which
fetches the island and splices the DOM region; the source deliberately holds
a literal closing-tag sequence inside a string, which the emitter must
escape. -/
def serverIslandRuntimeSource : String :=
  "function replaceServerIsland(request) \x7b var marker = here(); request.then(function (html) \x7b if (html === null) \x7b return; \x7d swap(marker, html + \"</script>\"); \x7d); \x7d"

/-- Escaping pass over the runtime source: every occurrence of the sequence
that would close a script tag gets a backslash inserted after `<`. -/
def escapeScriptClose : List Char → List Char
  | '<' :: '/' :: 's' :: 'c' :: 'r' :: 'i' :: 'p' :: 't' :: rest =>
    '<' :: '\\' :: '/' :: 's' :: 'c' :: 'r' :: 'i' :: 'p' :: 't' :: escapeScriptClose rest
  | c :: rest => c :: escapeScriptClose rest
  | [] => []

/-- Modelled from the spec: `renderServerIslandRuntime` of the missing Island
Encoder - the script-wrapped, escaped client runtime, emitted once per
response. -/
def renderServerIslandRuntime : String :=
  "<script>" ++ String.mk (escapeScriptClose serverIslandRuntimeSource.data) ++ "</script>"

/-- A 2048-character ciphertext stand-in used to exercise the POST branch of
the transport selection. -/
def bigPayload : String := String.mk (List.replicate 2048 'x')

theorem digitsFuel_zero (b f : Nat) : digitsFuel b f 0 = [] := by
  cases f <;> simp [digitsFuel]

theorem ofDigits_digitsFuel (b : Nat) (hb : 2 ≤ b) :
    ∀ f n, n ≤ f → ofDigits b (digitsFuel b f n) = n := by
  intro f
  induction f with
  | zero =>
    intro n hn
    interval_cases n
    simp [digitsFuel, ofDigits]
  | succ f ih =>
    intro n hn
    by_cases h0 : n = 0
    · subst h0; simp [digitsFuel, ofDigits]
    · have hdiv : n / b ≤ f := by
        have h1 : n / b < n := Nat.div_lt_self (Nat.pos_of_ne_zero h0) (by omega)
        omega
      simp [digitsFuel, h0, ofDigits, ih _ hdiv]
      exact Nat.mod_add_div n b

theorem ofDigits_natDigits (b : Nat) (hb : 2 ≤ b) (n : Nat) :
    ofDigits b (natDigits b n) = n :=
  ofDigits_digitsFuel b hb n n (Nat.le_refl n)

theorem digitsFuel_lt (b : Nat) (hb : 2 ≤ b) :
    ∀ f n d, d ∈ digitsFuel b f n → d < b := by
  intro f
  induction f with
  | zero => intro n d hd; simp [digitsFuel] at hd
  | succ f ih =>
    intro n d hd
    by_cases h0 : n = 0
    · subst h0; simp [digitsFuel] at hd
    · simp [digitsFuel, h0] at hd
      rcases hd with h | h
      · subst h; exact Nat.mod_lt n (by omega)
      · exact ih _ _ h

theorem natDigits_lt (b : Nat) (hb : 2 ≤ b) (n d : Nat) (hd : d ∈ natDigits b n) : d < b :=
  digitsFuel_lt b hb n n d hd

theorem digitsFuel_ne_nil (b f n : Nat) (h0 : 0 < n) (hf : n ≤ f) :
    digitsFuel b f n ≠ [] := by
  cases f with
  | zero => omega
  | succ f => simp [digitsFuel, Nat.pos_iff_ne_zero.mp h0]

theorem canon_digitsFuel (b : Nat) (hb : 2 ≤ b) :
    ∀ f n, n ≤ f → canonDigits (digitsFuel b f n) = true := by
  intro f
  induction f with
  | zero =>
    intro n hn
    interval_cases n
    simp [digitsFuel, canonDigits]
  | succ f ih =>
    intro n hn
    by_cases h0 : n = 0
    · subst h0; simp [digitsFuel, canonDigits]
    · rw [digitsFuel, if_neg h0]
      by_cases hq : n / b = 0
      · rw [hq, digitsFuel_zero]
        have hnb : n < b := (Nat.div_eq_zero_iff (by omega)).mp hq
        have : n % b = n := Nat.mod_eq_of_lt hnb
        simp [canonDigits, this, h0]
      · have h1 : n / b < n := Nat.div_lt_self (Nat.pos_of_ne_zero h0) (by omega)
        have hdiv : n / b ≤ f := by omega
        have htail := ih _ hdiv
        have hne := digitsFuel_ne_nil b f (n / b) (Nat.pos_of_ne_zero hq) hdiv
        cases htl : digitsFuel b f (n / b) with
        | nil => exact absurd htl hne
        | cons a l =>
          rw [htl] at htail
          simpa [canonDigits] using htail

theorem canon_natDigits (b : Nat) (hb : 2 ≤ b) (n : Nat) :
    canonDigits (natDigits b n) = true :=
  canon_digitsFuel b hb n n (Nat.le_refl n)

theorem ofDigits_set_ne (b : Nat) (hb : 0 < b) :
    ∀ (l : List Nat) (k x : Nat), k < l.length → x ≠ l.getD k 0 →
      ofDigits b (l.set k x) ≠ ofDigits b l := by
  intro l
  induction l with
  | nil => intro k x hk; simp at hk
  | cons d t ih =>
    intro k x hk hx
    cases k with
    | zero =>
      simp only [List.set, ofDigits]
      intro h
      exact hx (by simpa [List.getD] using Nat.add_right_cancel h)
    | succ k =>
      simp only [List.set, ofDigits]
      intro h
      have hk2 : k < t.length := by simpa using hk
      have hx2 : x ≠ t.getD k 0 := by simpa [List.getD] using hx
      have h2 : ofDigits b (t.set k x) = ofDigits b t :=
        Nat.eq_of_mul_eq_mul_left hb (Nat.add_left_cancel h)
      exact ih k x hk2 hx2 h2

theorem mix_pos (a b : Nat) : 0 < mix a b :=
  Nat.mul_pos (Nat.pos_pow_of_pos a (by omega)) (by omega)

theorem right_lt_mix (a b : Nat) : b < mix a b := by
  have h1 : 2 * b + 1 ≤ 2 ^ a * (2 * b + 1) :=
    Nat.le_mul_of_pos_left _ (Nat.pos_pow_of_pos a (by omega))
  unfold mix
  omega

theorem unmixFuel_mix (a b : Nat) : ∀ f, mix a b ≤ f → unmixFuel f (mix a b) = (a, b) := by
  induction a with
  | zero =>
    intro f hf
    have hm : mix 0 b = 2 * b + 1 := by simp [mix]
    have hpos := mix_pos 0 b
    cases f with
    | zero => omega
    | succ f =>
      have hmod : (2 * b + 1) % 2 = 1 := by omega
      have hdiv : (2 * b + 1) / 2 = b := by omega
      simp [unmixFuel, hm, hmod, hdiv]
  | succ a ih =>
    intro f hf
    have hpos := mix_pos (a + 1) b
    have hposa := mix_pos a b
    cases f with
    | zero => omega
    | succ f =>
      have hmix : mix (a + 1) b = 2 * mix a b := by
        unfold mix
        rw [Nat.pow_succ]
        ring
      have hmod : mix (a + 1) b % 2 = 0 := by omega
      have hdiv : mix (a + 1) b / 2 = mix a b := by omega
      have hle : mix a b ≤ f := by omega
      simp [unmixFuel, hmod, hdiv, ih f hle]

theorem unmix_mix (a b : Nat) : unmix (mix a b) = (a, b) :=
  unmixFuel_mix a b _ (Nat.le_refl _)

theorem mix_eq_mix {a b c d : Nat} : mix a b = mix c d ↔ a = c ∧ b = d := by
  constructor
  · intro h
    have h2 := congrArg unmix h
    rw [unmix_mix, unmix_mix] at h2
    exact ⟨congrArg Prod.fst h2, congrArg Prod.snd h2⟩
  · rintro ⟨rfl, rfl⟩
    rfl

theorem toNat_charOfNat (n : Nat) (h : n < 55296) : (Char.ofNat n).toNat = n := by
  have hv : Nat.isValidChar n := Or.inl h
  rw [Char.ofNat, dif_pos hv]
  simp [Char.ofNatAux, Char.toNat, UInt32.toNat, UInt32.ofNat']

theorem natToListFuel_listToNat :
    ∀ (l : List Char) (f : Nat), listToNat l ≤ f → natToListFuel f (listToNat l) = l := by
  intro l
  induction l with
  | nil => intro f hf; cases f <;> simp [natToListFuel, listToNat]
  | cons c cs ih =>
    intro f hf
    have hpos : 0 < listToNat (c :: cs) := by
      simp only [listToNat]
      exact mix_pos _ _
    cases f with
    | zero => omega
    | succ f =>
      have hum : unmix (listToNat (c :: cs)) = (c.toNat, listToNat cs) := by
        simp [listToNat, unmix_mix]
      have hlt : listToNat cs < listToNat (c :: cs) := by
        simp only [listToNat]
        exact right_lt_mix _ _
      have hle : listToNat cs ≤ f := by omega
      rw [natToListFuel, if_neg (by omega)]
      rw [hum]
      simp [ih f hle]

theorem natToStr_strToNat (s : String) : natToStr (strToNat s) = s := by
  show String.mk (natToListFuel (strToNat s) (strToNat s)) = s
  rw [show strToNat s = listToNat s.data from rfl,
    natToListFuel_listToNat s.data _ (Nat.le_refl _)]

theorem strToNat_inj {s1 s2 : String} (h : strToNat s1 = strToNat s2) : s1 = s2 := by
  rw [← natToStr_strToNat s1, h, natToStr_strToNat]

theorem takeField_low_append (f : List Nat) (hf : ∀ d ∈ f, d ≤ 1) :
    ∀ r, takeField (f ++ 2 :: r) = some (f, r) := by
  induction f with
  | nil => intro r; simp [takeField]
  | cons d t ih =>
    intro r
    have hd : d ≤ 1 := hf d (by simp)
    have ht : ∀ x ∈ t, x ≤ 1 := fun x hx => hf x (by simp [hx])
    have hne : ¬ d = 2 := by omega
    simp [takeField, hne, hd, ih ht]

theorem takeField_low_none (l : List Nat) (hl : ∀ d ∈ l, d ≤ 1) : takeField l = none := by
  induction l with
  | nil => rfl
  | cons d t ih =>
    have hd : d ≤ 1 := hl d (by simp)
    have hne : ¬ d = 2 := by omega
    simp [takeField, hne, hd, ih (fun x hx => hl x (by simp [hx]))]

theorem takeField_bad (f : List Nat) (x : Nat) (r : List Nat)
    (hf : ∀ d ∈ f, d ≤ 1) (hx : 2 < x) : takeField (f ++ x :: r) = none := by
  induction f with
  | nil =>
    have hne : ¬ x = 2 := by omega
    have hle : ¬ x ≤ 1 := by omega
    simp [takeField, hne, hle]
  | cons d t ih =>
    have hd : d ≤ 1 := hf d (by simp)
    have hne : ¬ d = 2 := by omega
    simp [takeField, hne, hd, ih (fun y hy => hf y (by simp [hy]))]

theorem parse3_fields (g1 g2 g3 : List Nat)
    (h1 : ∀ d ∈ g1, d ≤ 1) (h2 : ∀ d ∈ g2, d ≤ 1) (h3 : ∀ d ∈ g3, d ≤ 1) :
    parse3 (g1 ++ 2 :: (g2 ++ 2 :: (g3 ++ [2]))) =
      if canonDigits g1 ∧ canonDigits g2 ∧ canonDigits g3 then
        some (ofDigits 2 g1, ofDigits 2 g2, ofDigits 2 g3)
      else none := by
  have e3 : g3 ++ [2] = g3 ++ 2 :: ([] : List Nat) := rfl
  rw [e3]
  simp only [parse3, takeField_low_append g1 h1, takeField_low_append g2 h2,
    takeField_low_append g3 h3]
  simp

theorem natDigits_le_one (n d : Nat) (hd : d ∈ natDigits 2 n) : d ≤ 1 := by
  have := natDigits_lt 2 (by omega) n d hd
  omega

theorem enc3_shape (a b c : Nat) :
    encNat a ++ encNat b ++ encNat c =
      natDigits 2 a ++ 2 :: (natDigits 2 b ++ 2 :: (natDigits 2 c ++ [2])) := by
  simp [encNat, List.append_assoc]

theorem parse3_enc3 (a b c : Nat) :
    parse3 (encNat a ++ encNat b ++ encNat c) = some (a, b, c) := by
  rw [enc3_shape,
    parse3_fields _ _ _ (natDigits_le_one a) (natDigits_le_one b) (natDigits_le_one c),
    if_pos ⟨canon_natDigits 2 (by omega) a, canon_natDigits 2 (by omega) b,
      canon_natDigits 2 (by omega) c⟩,
    ofDigits_natDigits 2 (by omega), ofDigits_natDigits 2 (by omega),
    ofDigits_natDigits 2 (by omega)]

theorem decrypt_encrypt (key iv : Nat) (p : String) :
    decryptString key (encryptString key iv p) = some p := by
  rw [encryptString, decryptString, parse3_enc3]
  simp only [if_pos rfl]
  rw [Nat.xor_assoc, Nat.xor_self, Nat.xor_zero, natToStr_strToNat]
  simp

theorem le_one_append {g1 g2 : List Nat} (h1 : ∀ d ∈ g1, d ≤ 1) (h2 : ∀ d ∈ g2, d ≤ 1) :
    ∀ d ∈ g1 ++ g2, d ≤ 1 := by
  intro d hd
  rcases List.mem_append.mp hd with h | h
  · exact h1 d h
  · exact h2 d h

theorem le_one_cons {x : Nat} {g : List Nat} (hx : x ≤ 1) (h : ∀ d ∈ g, d ≤ 1) :
    ∀ d ∈ x :: g, d ≤ 1 := by
  intro d hd
  rcases List.mem_cons.mp hd with h2 | h2
  · exact h2 ▸ hx
  · exact h d h2

theorem le_one_set {g : List Nat} {k x : Nat} (hg : ∀ d ∈ g, d ≤ 1) (hx : x ≤ 1) :
    ∀ d ∈ g.set k x, d ≤ 1 := by
  intro d hd
  rcases List.mem_or_eq_of_mem_set hd with h | h
  · exact hg d h
  · exact h ▸ hx

theorem le_one_take {g : List Nat} (hg : ∀ d ∈ g, d ≤ 1) (k : Nat) :
    ∀ d ∈ g.take k, d ≤ 1 :=
  fun d hd => hg d (List.take_subset k g hd)

theorem le_one_drop {g : List Nat} (hg : ∀ d ∈ g, d ≤ 1) (k : Nat) :
    ∀ d ∈ g.drop k, d ≤ 1 :=
  fun d hd => hg d (List.drop_subset k g hd)

theorem decrypt_parse_none (key : Nat) (s : List Nat) (hp : parse3 s = none) :
    decryptString key s = none := by
  simp [decryptString, hp]

theorem decrypt_parsed_none (key : Nat) (s : List Nat) (v1 v2 v3 : Nat)
    (hp : parse3 s = some (v1, v2, v3)) (hne : v3 ≠ macTag key v1 v2) :
    decryptString key s = none := by
  simp [decryptString, hp, hne]

theorem parse3_two (g1 g2 : List Nat) (h1 : ∀ d ∈ g1, d ≤ 1) (h2 : ∀ d ∈ g2, d ≤ 1) :
    parse3 (g1 ++ 2 :: (g2 ++ [2])) = none := by
  have e2 : g2 ++ [2] = g2 ++ 2 :: ([] : List Nat) := rfl
  rw [e2]
  simp only [parse3, takeField_low_append g1 h1, takeField_low_append g2 h2]
  simp [takeField]

theorem parse3_four (g1 g2 g3 g4 : List Nat)
    (h1 : ∀ d ∈ g1, d ≤ 1) (h2 : ∀ d ∈ g2, d ≤ 1) (h3 : ∀ d ∈ g3, d ≤ 1) :
    parse3 (g1 ++ 2 :: (g2 ++ 2 :: (g3 ++ 2 :: (g4 ++ [2])))) = none := by
  simp only [parse3, takeField_low_append g1 h1, takeField_low_append g2 h2,
    takeField_low_append g3 h3]
  have hne : g4 ++ [2] ≠ ([] : List Nat) := by simp
  simp [hne]

theorem parse3_field1_none (l : List Nat) (h : takeField l = none) : parse3 l = none := by
  simp [parse3, h]

theorem parse3_field2_none (g1 : List Nat) (h1 : ∀ d ∈ g1, d ≤ 1) (l : List Nat)
    (h : takeField l = none) : parse3 (g1 ++ 2 :: l) = none := by
  simp only [parse3, takeField_low_append g1 h1, h]

theorem parse3_field3_none (g1 g2 : List Nat) (h1 : ∀ d ∈ g1, d ≤ 1)
    (h2 : ∀ d ∈ g2, d ≤ 1) (l : List Nat) (h : takeField l = none) :
    parse3 (g1 ++ 2 :: (g2 ++ 2 :: l)) = none := by
  simp only [parse3, takeField_low_append g1 h1, takeField_low_append g2 h2, h]

theorem decrypt_none_f1 (key A B : Nat) (k x : Nat) (hk : k < (natDigits 2 A).length)
    (hx : x ≠ (natDigits 2 A).getD k 0) :
    decryptString key ((natDigits 2 A).set k x ++
      2 :: (natDigits 2 B ++ 2 :: (natDigits 2 (macTag key A B) ++ [2]))) = none := by
  by_cases hx1 : x ≤ 1
  · have hb : ∀ d ∈ (natDigits 2 A).set k x, d ≤ 1 := le_one_set (natDigits_le_one A) hx1
    have hparse := parse3_fields ((natDigits 2 A).set k x) (natDigits 2 B)
      (natDigits 2 (macTag key A B)) hb (natDigits_le_one B) (natDigits_le_one _)
    by_cases hc : (canonDigits ((natDigits 2 A).set k x) = true) ∧
        (canonDigits (natDigits 2 B) = true) ∧
        (canonDigits (natDigits 2 (macTag key A B)) = true)
    · rw [if_pos hc] at hparse
      rw [ofDigits_natDigits 2 (by omega), ofDigits_natDigits 2 (by omega)] at hparse
      apply decrypt_parsed_none _ _ _ _ _ hparse
      have hv : ofDigits 2 ((natDigits 2 A).set k x) ≠ A := by
        have h2 := ofDigits_set_ne 2 (by omega) (natDigits 2 A) k x hk hx
        rw [ofDigits_natDigits 2 (by omega)] at h2
        exact h2
      simp only [macTag]
      intro h
      rcases mix_eq_mix.mp h with ⟨-, h2⟩
      rcases mix_eq_mix.mp h2 with ⟨hA, -⟩
      exact hv hA.symm
    · rw [if_neg hc] at hparse
      exact decrypt_parse_none _ _ hparse
  · rw [List.set_eq_take_append_cons_drop, if_pos hk]
    by_cases hx2 : x = 2
    · subst hx2
      have e : ((natDigits 2 A).take k ++ 2 :: (natDigits 2 A).drop (k + 1)) ++
          2 :: (natDigits 2 B ++ 2 :: (natDigits 2 (macTag key A B) ++ [2])) =
          (natDigits 2 A).take k ++ 2 :: ((natDigits 2 A).drop (k + 1) ++
            2 :: (natDigits 2 B ++ 2 :: (natDigits 2 (macTag key A B) ++ [2]))) := by
        simp
      rw [e]
      exact decrypt_parse_none _ _ (parse3_four _ _ _ _ (le_one_take (natDigits_le_one A) k)
        (le_one_drop (natDigits_le_one A) (k + 1)) (natDigits_le_one B))
    · have hx3 : 2 < x := by omega
      have e : ((natDigits 2 A).take k ++ x :: (natDigits 2 A).drop (k + 1)) ++
          2 :: (natDigits 2 B ++ 2 :: (natDigits 2 (macTag key A B) ++ [2])) =
          (natDigits 2 A).take k ++ x :: ((natDigits 2 A).drop (k + 1) ++
            2 :: (natDigits 2 B ++ 2 :: (natDigits 2 (macTag key A B) ++ [2]))) := by
        simp
      rw [e]
      exact decrypt_parse_none _ _ (parse3_field1_none _
        (takeField_bad _ x _ (le_one_take (natDigits_le_one A) k) hx3))

theorem decrypt_none_f2 (key A B : Nat) (k x : Nat) (hk : k < (natDigits 2 B).length)
    (hx : x ≠ (natDigits 2 B).getD k 0) :
    decryptString key (natDigits 2 A ++
      2 :: ((natDigits 2 B).set k x ++ 2 :: (natDigits 2 (macTag key A B) ++ [2]))) = none := by
  by_cases hx1 : x ≤ 1
  · have hb : ∀ d ∈ (natDigits 2 B).set k x, d ≤ 1 := le_one_set (natDigits_le_one B) hx1
    have hparse := parse3_fields (natDigits 2 A) ((natDigits 2 B).set k x)
      (natDigits 2 (macTag key A B)) (natDigits_le_one A) hb (natDigits_le_one _)
    by_cases hc : (canonDigits (natDigits 2 A) = true) ∧
        (canonDigits ((natDigits 2 B).set k x) = true) ∧
        (canonDigits (natDigits 2 (macTag key A B)) = true)
    · rw [if_pos hc] at hparse
      rw [ofDigits_natDigits 2 (by omega), ofDigits_natDigits 2 (by omega)] at hparse
      apply decrypt_parsed_none _ _ _ _ _ hparse
      have hv : ofDigits 2 ((natDigits 2 B).set k x) ≠ B := by
        have h2 := ofDigits_set_ne 2 (by omega) (natDigits 2 B) k x hk hx
        rw [ofDigits_natDigits 2 (by omega)] at h2
        exact h2
      simp only [macTag]
      intro h
      rcases mix_eq_mix.mp h with ⟨-, h2⟩
      rcases mix_eq_mix.mp h2 with ⟨-, hB⟩
      exact hv hB.symm
    · rw [if_neg hc] at hparse
      exact decrypt_parse_none _ _ hparse
  · rw [List.set_eq_take_append_cons_drop, if_pos hk]
    by_cases hx2 : x = 2
    · subst hx2
      have e : natDigits 2 A ++ 2 :: (((natDigits 2 B).take k ++
          2 :: (natDigits 2 B).drop (k + 1)) ++
          2 :: (natDigits 2 (macTag key A B) ++ [2])) =
          natDigits 2 A ++ 2 :: ((natDigits 2 B).take k ++
            2 :: ((natDigits 2 B).drop (k + 1) ++
              2 :: (natDigits 2 (macTag key A B) ++ [2]))) := by
        simp
      rw [e]
      exact decrypt_parse_none _ _ (parse3_four _ _ _ _ (natDigits_le_one A)
        (le_one_take (natDigits_le_one B) k) (le_one_drop (natDigits_le_one B) (k + 1)))
    · have hx3 : 2 < x := by omega
      have e : natDigits 2 A ++ 2 :: (((natDigits 2 B).take k ++
          x :: (natDigits 2 B).drop (k + 1)) ++
          2 :: (natDigits 2 (macTag key A B) ++ [2])) =
          natDigits 2 A ++ 2 :: ((natDigits 2 B).take k ++
            x :: ((natDigits 2 B).drop (k + 1) ++
              2 :: (natDigits 2 (macTag key A B) ++ [2]))) := by
        simp
      rw [e]
      exact decrypt_parse_none _ _ (parse3_field2_none _ (natDigits_le_one A) _
        (takeField_bad _ x _ (le_one_take (natDigits_le_one B) k) hx3))

theorem decrypt_none_f3 (key A B : Nat) (k x : Nat)
    (hk : k < (natDigits 2 (macTag key A B)).length)
    (hx : x ≠ (natDigits 2 (macTag key A B)).getD k 0) :
    decryptString key (natDigits 2 A ++
      2 :: (natDigits 2 B ++ 2 :: ((natDigits 2 (macTag key A B)).set k x ++ [2]))) = none := by
  by_cases hx1 : x ≤ 1
  · have hb : ∀ d ∈ (natDigits 2 (macTag key A B)).set k x, d ≤ 1 :=
      le_one_set (natDigits_le_one _) hx1
    have hparse := parse3_fields (natDigits 2 A) (natDigits 2 B)
      ((natDigits 2 (macTag key A B)).set k x) (natDigits_le_one A) (natDigits_le_one B) hb
    by_cases hc : (canonDigits (natDigits 2 A) = true) ∧
        (canonDigits (natDigits 2 B) = true) ∧
        (canonDigits ((natDigits 2 (macTag key A B)).set k x) = true)
    · rw [if_pos hc] at hparse
      rw [ofDigits_natDigits 2 (by omega), ofDigits_natDigits 2 (by omega)] at hparse
      apply decrypt_parsed_none _ _ _ _ _ hparse
      have h2 := ofDigits_set_ne 2 (by omega) (natDigits 2 (macTag key A B)) k x hk hx
      rw [ofDigits_natDigits 2 (by omega)] at h2
      exact h2
    · rw [if_neg hc] at hparse
      exact decrypt_parse_none _ _ hparse
  · rw [List.set_eq_take_append_cons_drop, if_pos hk]
    by_cases hx2 : x = 2
    · subst hx2
      have e : natDigits 2 A ++ 2 :: (natDigits 2 B ++
          2 :: (((natDigits 2 (macTag key A B)).take k ++
            2 :: (natDigits 2 (macTag key A B)).drop (k + 1)) ++ [2])) =
          natDigits 2 A ++ 2 :: (natDigits 2 B ++
            2 :: ((natDigits 2 (macTag key A B)).take k ++
              2 :: ((natDigits 2 (macTag key A B)).drop (k + 1) ++ [2]))) := by
        simp
      rw [e]
      exact decrypt_parse_none _ _ (parse3_four _ _ _ _ (natDigits_le_one A)
        (natDigits_le_one B) (le_one_take (natDigits_le_one _) k))
    · have hx3 : 2 < x := by omega
      have e : natDigits 2 A ++ 2 :: (natDigits 2 B ++
          2 :: (((natDigits 2 (macTag key A B)).take k ++
            x :: (natDigits 2 (macTag key A B)).drop (k + 1)) ++ [2])) =
          natDigits 2 A ++ 2 :: (natDigits 2 B ++
            2 :: ((natDigits 2 (macTag key A B)).take k ++
              x :: ((natDigits 2 (macTag key A B)).drop (k + 1) ++ [2]))) := by
        simp
      rw [e]
      exact decrypt_parse_none _ _ (parse3_field3_none _ _ (natDigits_le_one A)
        (natDigits_le_one B) _
        (takeField_bad _ x _ (le_one_take (natDigits_le_one _) k) hx3))

theorem decrypt_none_t1 (key A B : Nat) (x : Nat) (hx : x ≠ 2) :
    decryptString key (natDigits 2 A ++
      x :: (natDigits 2 B ++ 2 :: (natDigits 2 (macTag key A B) ++ [2]))) = none := by
  by_cases hx1 : x ≤ 1
  · have e : natDigits 2 A ++ x :: (natDigits 2 B ++
        2 :: (natDigits 2 (macTag key A B) ++ [2])) =
        (natDigits 2 A ++ x :: natDigits 2 B) ++
          2 :: (natDigits 2 (macTag key A B) ++ [2]) := by
      simp
    rw [e]
    exact decrypt_parse_none _ _ (parse3_two _ _
      (le_one_append (natDigits_le_one A) (le_one_cons hx1 (natDigits_le_one B)))
      (natDigits_le_one _))
  · have hx3 : 2 < x := by omega
    exact decrypt_parse_none _ _ (parse3_field1_none _
      (takeField_bad _ x _ (natDigits_le_one A) hx3))

theorem decrypt_none_t2 (key A B : Nat) (x : Nat) (hx : x ≠ 2) :
    decryptString key (natDigits 2 A ++
      2 :: (natDigits 2 B ++ x :: (natDigits 2 (macTag key A B) ++ [2]))) = none := by
  by_cases hx1 : x ≤ 1
  · have e : natDigits 2 A ++ 2 :: (natDigits 2 B ++
        x :: (natDigits 2 (macTag key A B) ++ [2])) =
        natDigits 2 A ++ 2 :: ((natDigits 2 B ++
          x :: natDigits 2 (macTag key A B)) ++ [2]) := by
      simp
    rw [e]
    exact decrypt_parse_none _ _ (parse3_two _ _ (natDigits_le_one A)
      (le_one_append (natDigits_le_one B) (le_one_cons hx1 (natDigits_le_one _))))
  · have hx3 : 2 < x := by omega
    exact decrypt_parse_none _ _ (parse3_field2_none _ (natDigits_le_one A) _
      (takeField_bad _ x _ (natDigits_le_one B) hx3))

theorem decrypt_none_t3 (key A B : Nat) (x : Nat) (hx : x ≠ 2) :
    decryptString key (natDigits 2 A ++
      2 :: (natDigits 2 B ++ 2 :: (natDigits 2 (macTag key A B) ++ [x]))) = none := by
  by_cases hx1 : x ≤ 1
  · have hb : ∀ d ∈ natDigits 2 (macTag key A B) ++ [x], d ≤ 1 := by
      intro d hd
      rcases List.mem_append.mp hd with h | h
      · exact natDigits_le_one _ d h
      · simp at h
        omega
    exact decrypt_parse_none _ _ (parse3_field3_none _ _ (natDigits_le_one A)
      (natDigits_le_one B) _ (takeField_low_none _ hb))
  · have hx3 : 2 < x := by omega
    have e : natDigits 2 A ++ 2 :: (natDigits 2 B ++
        2 :: (natDigits 2 (macTag key A B) ++ [x])) =
        natDigits 2 A ++ 2 :: (natDigits 2 B ++
          2 :: (natDigits 2 (macTag key A B) ++ x :: [])) := by
      simp
    rw [e]
    exact decrypt_parse_none _ _ (parse3_field3_none _ _ (natDigits_le_one A)
      (natDigits_le_one B) _ (takeField_bad _ x _ (natDigits_le_one _) hx3))

theorem set3_cases (l1 l2 l3 : List Nat) (j x : Nat)
    (hj : j < (l1 ++ 2 :: (l2 ++ 2 :: (l3 ++ [2]))).length) :
    (∃ k, k < l1.length ∧
      (l1 ++ 2 :: (l2 ++ 2 :: (l3 ++ [2]))).set j x =
        l1.set k x ++ 2 :: (l2 ++ 2 :: (l3 ++ [2])) ∧
      (l1 ++ 2 :: (l2 ++ 2 :: (l3 ++ [2]))).getD j 0 = l1.getD k 0) ∨
    ((l1 ++ 2 :: (l2 ++ 2 :: (l3 ++ [2]))).set j x =
        l1 ++ x :: (l2 ++ 2 :: (l3 ++ [2])) ∧
      (l1 ++ 2 :: (l2 ++ 2 :: (l3 ++ [2]))).getD j 0 = 2) ∨
    (∃ k, k < l2.length ∧
      (l1 ++ 2 :: (l2 ++ 2 :: (l3 ++ [2]))).set j x =
        l1 ++ 2 :: (l2.set k x ++ 2 :: (l3 ++ [2])) ∧
      (l1 ++ 2 :: (l2 ++ 2 :: (l3 ++ [2]))).getD j 0 = l2.getD k 0) ∨
    ((l1 ++ 2 :: (l2 ++ 2 :: (l3 ++ [2]))).set j x =
        l1 ++ 2 :: (l2 ++ x :: (l3 ++ [2])) ∧
      (l1 ++ 2 :: (l2 ++ 2 :: (l3 ++ [2]))).getD j 0 = 2) ∨
    (∃ k, k < l3.length ∧
      (l1 ++ 2 :: (l2 ++ 2 :: (l3 ++ [2]))).set j x =
        l1 ++ 2 :: (l2 ++ 2 :: (l3.set k x ++ [2])) ∧
      (l1 ++ 2 :: (l2 ++ 2 :: (l3 ++ [2]))).getD j 0 = l3.getD k 0) ∨
    ((l1 ++ 2 :: (l2 ++ 2 :: (l3 ++ [2]))).set j x =
        l1 ++ 2 :: (l2 ++ 2 :: (l3 ++ [x])) ∧
      (l1 ++ 2 :: (l2 ++ 2 :: (l3 ++ [2]))).getD j 0 = 2) := by
  have hlen : (l1 ++ 2 :: (l2 ++ 2 :: (l3 ++ [2]))).length =
      l1.length + l2.length + l3.length + 3 := by
    simp
    omega
  rcases Nat.lt_trichotomy j l1.length with h1 | h1 | h1
  · exact Or.inl ⟨j, h1, List.set_append_left j x h1, List.getD_append _ _ _ _ h1⟩
  · subst h1
    refine Or.inr (Or.inl ⟨?_, ?_⟩)
    · rw [List.set_append_right _ x (Nat.le_refl _), Nat.sub_self]
      rfl
    · rw [List.getD_append_right _ _ _ _ (Nat.le_refl _), Nat.sub_self]
      simp [List.getD]
  · obtain ⟨k, rfl⟩ : ∃ k, j = l1.length + 1 + k := ⟨j - l1.length - 1, by omega⟩
    have hsub : l1.length + 1 + k - l1.length = k + 1 := by omega
    have e0 : (l1 ++ 2 :: (l2 ++ 2 :: (l3 ++ [2]))).set (l1.length + 1 + k) x =
        l1 ++ 2 :: ((l2 ++ 2 :: (l3 ++ [2])).set k x) := by
      rw [List.set_append_right _ x (by omega), hsub]
      rfl
    have eg0 : (l1 ++ 2 :: (l2 ++ 2 :: (l3 ++ [2]))).getD (l1.length + 1 + k) 0 =
        (l2 ++ 2 :: (l3 ++ [2])).getD k 0 := by
      rw [List.getD_append_right _ _ _ _ (by omega), hsub]
      simp [List.getD]
    rw [hlen] at hj
    rcases Nat.lt_trichotomy k l2.length with h2 | h2 | h2
    · refine Or.inr (Or.inr (Or.inl ⟨k, h2, ?_, ?_⟩))
      · rw [e0, List.set_append_left k x h2]
      · rw [eg0, List.getD_append _ _ _ _ h2]
    · subst h2
      refine Or.inr (Or.inr (Or.inr (Or.inl ⟨?_, ?_⟩)))
      · rw [e0, List.set_append_right _ x (Nat.le_refl _), Nat.sub_self]
        rfl
      · rw [eg0, List.getD_append_right _ _ _ _ (Nat.le_refl _), Nat.sub_self]
        simp [List.getD]
    · obtain ⟨m, rfl⟩ : ∃ m, k = l2.length + 1 + m := ⟨k - l2.length - 1, by omega⟩
      have hsub2 : l2.length + 1 + m - l2.length = m + 1 := by omega
      have e1 : (l2 ++ 2 :: (l3 ++ [2])).set (l2.length + 1 + m) x =
          l2 ++ 2 :: ((l3 ++ [2]).set m x) := by
        rw [List.set_append_right _ x (by omega), hsub2]
        rfl
      have eg1 : (l2 ++ 2 :: (l3 ++ [2])).getD (l2.length + 1 + m) 0 =
          (l3 ++ [2]).getD m 0 := by
        rw [List.getD_append_right _ _ _ _ (by omega), hsub2]
        simp [List.getD]
      rcases Nat.lt_or_ge m l3.length with h3 | h3
      · refine Or.inr (Or.inr (Or.inr (Or.inr (Or.inl ⟨m, h3, ?_, ?_⟩))))
        · rw [e0, e1, List.set_append_left m x h3]
        · rw [eg0, eg1, List.getD_append _ _ _ _ h3]
      · have h4 : m = l3.length := by omega
        subst h4
        refine Or.inr (Or.inr (Or.inr (Or.inr (Or.inr ⟨?_, ?_⟩))))
        · rw [e0, e1, List.set_append_right _ x (Nat.le_refl _), Nat.sub_self]
          rfl
        · rw [eg0, eg1, List.getD_append_right _ _ _ _ (Nat.le_refl _), Nat.sub_self]
          simp [List.getD]

theorem decrypt_set_ne (key A B : Nat) (j x : Nat)
    (hj : j < (encNat A ++ encNat B ++ encNat (macTag key A B)).length)
    (hx : x ≠ (encNat A ++ encNat B ++ encNat (macTag key A B)).getD j 0) :
    decryptString key ((encNat A ++ encNat B ++ encNat (macTag key A B)).set j x) = none := by
  rw [enc3_shape] at hj hx ⊢
  rcases set3_cases (natDigits 2 A) (natDigits 2 B) (natDigits 2 (macTag key A B)) j x hj with
    ⟨k, hk, hset, hget⟩ | ⟨hset, hget⟩ | ⟨k, hk, hset, hget⟩ | ⟨hset, hget⟩ |
    ⟨k, hk, hset, hget⟩ | ⟨hset, hget⟩
  · rw [hset]
    rw [hget] at hx
    exact decrypt_none_f1 key A B k x hk hx
  · rw [hset]
    rw [hget] at hx
    exact decrypt_none_t1 key A B x hx
  · rw [hset]
    rw [hget] at hx
    exact decrypt_none_f2 key A B k x hk hx
  · rw [hset]
    rw [hget] at hx
    exact decrypt_none_t2 key A B x hx
  · rw [hset]
    rw [hget] at hx
    exact decrypt_none_f3 key A B k x hk hx
  · rw [hset]
    rw [hget] at hx
    exact decrypt_none_t3 key A B x hx

theorem xor_pow_ne (a i : Nat) : a ^^^ 2 ^ i ≠ a := by
  intro h
  have h2 : a ^^^ (a ^^^ 2 ^ i) = a ^^^ a := congrArg (a ^^^ ·) h
  rw [← Nat.xor_assoc, Nat.xor_self, Nat.zero_xor] at h2
  have := Nat.pos_pow_of_pos i (show 0 < 2 by omega)
  omega

theorem charDigit_digitChar (d : Nat) (hd : d ≤ 2) : charDigit (digitChar d) = d := by
  simp only [charDigit, digitChar]
  rw [toNat_charOfNat _ (by omega)]
  omega

theorem map_charDigit_digitChar (l : List Nat) (hl : ∀ d ∈ l, d ≤ 2) :
    (l.map digitChar).map charDigit = l := by
  induction l with
  | nil => rfl
  | cons d t ih =>
    simp only [List.map]
    rw [charDigit_digitChar d (hl d (by simp)), ih (fun x hx => hl x (by simp [hx]))]

theorem decodeKey_encodeKey (key : Nat) : decodeKey (encodeKey key) = some key := by
  rw [decodeKey, encodeKey]
  have hdata : (String.mk ((natDigits 2 key).map digitChar ++ [digitChar 2])).data =
      (natDigits 2 key).map digitChar ++ [digitChar 2] := rfl
  rw [hdata, List.map_append,
    map_charDigit_digitChar _ (fun d hd => by have := natDigits_le_one key d hd; omega)]
  have h2 : ([digitChar 2].map charDigit) = [2] := by
    simp [charDigit_digitChar 2 (by omega)]
  rw [h2]
  have e : natDigits 2 key ++ [2] = natDigits 2 key ++ 2 :: ([] : List Nat) := rfl
  rw [e, takeField_low_append _ (natDigits_le_one key)]
  simp [canon_natDigits 2 (by omega), ofDigits_natDigits 2 (by omega)]

theorem encodeKey_ne_empty (key : Nat) : encodeKey key ≠ "" := by
  rw [encodeKey]
  intro h
  have h2 : ((natDigits 2 key).map digitChar ++ [digitChar 2]) = ([] : List Char) :=
    congrArg String.data h
  simp at h2

/-- C1: for every key produced by `createKey`, every IV and every string `P`
(including the empty string), decrypting the result of encrypting `P` under
the key yields `P` again: `decryptString (K, encryptString (K, P)) = P`. -/
theorem claim_decrypt_of_encrypt_roundtrip (entropy iv : Nat) (p : String) :
    decryptString (createKey entropy) (encryptString (createKey entropy) iv p) = some p :=
  decrypt_encrypt (createKey entropy) iv p

/-- C2: decryption of a valid payload fails outright (returns `none`, never
partial plaintext) whenever any single bit of the encoded payload is altered,
and also fails under any key other than the encrypting key. -/
theorem claim_decrypt_fails_tamper_wrong_key (key key2 iv : Nat) (p : String)
    (j i : Nat) (hj : j < (encryptString key iv p).length) (hk : key2 ≠ key) :
    decryptString key (flipBit (encryptString key iv p) j i) = none ∧
    decryptString key2 (encryptString key iv p) = none := by
  constructor
  · rw [flipBit]
    rw [encryptString] at hj ⊢
    exact decrypt_set_ne key iv _ j _ hj (xor_pow_ne _ i)
  · rw [encryptString, decryptString, parse3_enc3]
    have hne : macTag key iv (strToNat p ^^^ keystream key iv) ≠
        macTag key2 iv (strToNat p ^^^ keystream key iv) := by
      simp only [macTag]
      intro h
      exact hk ((mix_eq_mix.mp h).1).symm
    simp only [if_neg hne]

/-- Witness for C2 at a concrete key, IV, plaintext and bit position. -/
theorem claim_decrypt_fails_tamper_wrong_key_witness :
    decryptString 1 (flipBit (encryptString 1 0 "") 1 0) = none ∧
    decryptString 0 (encryptString 1 0 "") = none :=
  claim_decrypt_fails_tamper_wrong_key 1 0 0 "" 1 0 (by decide) (by decide)

/-- C8: two encryption calls under the same key with distinct fresh IVs
produce different encoded outputs, and both outputs decrypt back to the
original plaintext. -/
theorem claim_encrypt_fresh_iv_distinct (key iv1 iv2 : Nat) (p : String) (h : iv1 ≠ iv2) :
    encryptString key iv1 p ≠ encryptString key iv2 p ∧
    decryptString key (encryptString key iv1 p) = some p ∧
    decryptString key (encryptString key iv2 p) = some p := by
  refine ⟨?_, decrypt_encrypt key iv1 p, decrypt_encrypt key iv2 p⟩
  intro he
  have e1 : parse3 (encryptString key iv1 p) =
      some (iv1, strToNat p ^^^ keystream key iv1,
        macTag key iv1 (strToNat p ^^^ keystream key iv1)) := by
    rw [encryptString]
    exact parse3_enc3 _ _ _
  have e2 : parse3 (encryptString key iv2 p) =
      some (iv2, strToNat p ^^^ keystream key iv2,
        macTag key iv2 (strToNat p ^^^ keystream key iv2)) := by
    rw [encryptString]
    exact parse3_enc3 _ _ _
  rw [he, e2] at e1
  simp only [Option.some.injEq, Prod.mk.injEq] at e1
  exact h e1.1.symm

/-- Witness for C8 at a concrete key, plaintext and pair of distinct IVs. -/
theorem claim_encrypt_fresh_iv_distinct_witness :
    encryptString 0 0 "" ≠ encryptString 0 1 "" ∧
    decryptString 0 (encryptString 0 0 "") = some "" ∧
    decryptString 0 (encryptString 0 1 "") = some "" :=
  claim_encrypt_fresh_iv_distinct 0 0 1 "" (by decide)

/-- C7: `encodeKey` returns a non-empty string, `decodeKey` inverts it, and
the decoded key decrypts every ciphertext produced with the original key
(and ciphertexts produced under the decoded key decrypt as well). -/
theorem claim_decodeKey_encodeKey_equiv (key iv : Nat) (p : String) :
    encodeKey key ≠ "" ∧ decodeKey (encodeKey key) = some key ∧
    (∀ k2, decodeKey (encodeKey key) = some k2 →
      decryptString k2 (encryptString key iv p) = some p ∧
      decryptString key (encryptString k2 iv p) = some p) := by
  refine ⟨encodeKey_ne_empty key, decodeKey_encodeKey key, ?_⟩
  intro k2 h
  rw [decodeKey_encodeKey key] at h
  injection h with h2
  subst h2
  exact ⟨decrypt_encrypt key iv p, decrypt_encrypt key iv p⟩

/-- Witness for C7 at a concrete key, IV and plaintext. -/
theorem claim_decodeKey_encodeKey_equiv_witness :
    encodeKey 3 ≠ "" ∧ decodeKey (encodeKey 3) = some 3 ∧
    (decryptString 3 (encryptString 3 0 "ok") = some "ok" ∧
      decryptString 3 (encryptString 3 0 "ok") = some "ok") := by
  have h := claim_decodeKey_encodeKey_equiv 3 0 "ok"
  exact ⟨h.1, h.2.1, h.2.2 3 (by decide)⟩

theorem string_data_inj {s1 s2 : String} (h : s1.data = s2.data) : s1 = s2 := by
  cases s1
  cases s2
  exact congrArg String.mk h

theorem toNat_b64Char (d : Nat) (hd : d < 64) :
    (b64Char d).toNat = (if d < 26 then 65 + d else if d < 52 then 71 + d
      else if d < 62 then d - 4 else if d = 62 then 43 else 47) := by
  unfold b64Char
  by_cases h1 : d < 26
  · rw [if_pos h1, if_pos h1, toNat_charOfNat _ (by omega)]
  · rw [if_neg h1, if_neg h1]
    by_cases h2 : d < 52
    · rw [if_pos h2, if_pos h2, toNat_charOfNat _ (by omega)]
      omega
    · rw [if_neg h2, if_neg h2]
      by_cases h3 : d < 62
      · rw [if_pos h3, if_pos h3, toNat_charOfNat _ (by omega)]
        omega
      · rw [if_neg h3, if_neg h3]
        by_cases h4 : d = 62
        · rw [if_pos h4, if_pos h4, toNat_charOfNat _ (by omega)]
        · rw [if_neg h4, if_neg h4, toNat_charOfNat _ (by omega)]

theorem b64Char_inj (d1 d2 : Nat) (h1 : d1 < 64) (h2 : d2 < 64)
    (h : b64Char d1 = b64Char d2) : d1 = d2 := by
  have e1 := congrArg Char.toNat h
  rw [toNat_b64Char d1 h1, toNat_b64Char d2 h2] at e1
  split_ifs at e1 <;> omega

theorem map_b64Char_inj : ∀ (l1 l2 : List Nat), (∀ d ∈ l1, d < 64) → (∀ d ∈ l2, d < 64) →
    l1.map b64Char = l2.map b64Char → l1 = l2 := by
  intro l1
  induction l1 with
  | nil =>
    intro l2 _ _ h
    cases l2 with
    | nil => rfl
    | cons d2 t2 => simp at h
  | cons d t ih =>
    intro l2 hb1 hb2 h
    cases l2 with
    | nil => simp at h
    | cons d2 t2 =>
      simp only [List.map, List.cons.injEq] at h
      obtain ⟨hh, ht⟩ := h
      rw [b64Char_inj d d2 (hb1 d (by simp)) (hb2 d2 (by simp)) hh,
        ih t2 (fun x hx => hb1 x (by simp [hx])) (fun x hx => hb2 x (by simp [hx])) ht]

theorem natB64_inj {n1 n2 : Nat} (h : natB64 n1 = natB64 n2) : n1 = n2 := by
  have hd : (natDigits 64 n1).map b64Char = (natDigits 64 n2).map b64Char :=
    congrArg String.data h
  have hdig := map_b64Char_inj _ _ (fun d hd2 => natDigits_lt 64 (by omega) n1 d hd2)
    (fun d hd2 => natDigits_lt 64 (by omega) n2 d hd2) hd
  have h2 := congrArg (ofDigits 64) hdig
  rwa [ofDigits_natDigits 64 (by omega), ofDigits_natDigits 64 (by omega)] at h2

/-- C9: `generateCspDigest` is deterministic (a pure function of algorithm
and content), its output carries the matching lowercase `sha256-` / `sha384-`
/ `sha512-` prefix, and distinct content strings yield distinct outputs. -/
theorem claim_generateCspDigest_props (alg : CspAlgorithm) (c1 c2 : String) :
    generateCspDigest alg c1 = generateCspDigest alg c1 ∧
    (alg = .sha256 → ∃ r, generateCspDigest alg c1 = "sha256-" ++ r) ∧
    (alg = .sha384 → ∃ r, generateCspDigest alg c1 = "sha384-" ++ r) ∧
    (alg = .sha512 → ∃ r, generateCspDigest alg c1 = "sha512-" ++ r) ∧
    (c1 ≠ c2 → generateCspDigest alg c1 ≠ generateCspDigest alg c2) := by
  refine ⟨rfl, ?_, ?_, ?_, ?_⟩
  · rintro rfl
    exact ⟨natB64 (strToNat c1), rfl⟩
  · rintro rfl
    exact ⟨natB64 (strToNat c1), rfl⟩
  · rintro rfl
    exact ⟨natB64 (strToNat c1), rfl⟩
  · intro hne h
    apply hne
    apply strToNat_inj
    apply natB64_inj
    apply string_data_inj
    simp only [generateCspDigest] at h
    have hd := congrArg String.data h
    simp only [String.data_append, List.append_assoc] at hd
    exact List.append_cancel_left (List.append_cancel_left hd)

/-- Witness for C9 at the SHA-256 algorithm and two concrete contents. -/
theorem claim_generateCspDigest_props_witness :
    generateCspDigest .sha256 "hello" = generateCspDigest .sha256 "hello" ∧
    (∃ r, generateCspDigest .sha256 "hello" = "sha256-" ++ r) ∧
    generateCspDigest .sha256 "hello" ≠ generateCspDigest .sha256 "world" := by
  have h := claim_generateCspDigest_props .sha256 "hello" "world"
  exact ⟨h.1, h.2.1 rfl, h.2.2.2.2 (by decide)⟩

/-- C4: a GET island request missing any of the `s`, `e`, `p` query
parameters gets a 400 response; with all three present - empty strings are
valid values distinct from absence - it succeeds and returns the three
values unchanged. -/
theorem claim_getRequestData_get (q : String → Option String)
    (body : Option (List (String × String))) :
    ((q "s" = none ∨ q "e" = none ∨ q "p" = none) →
      ∃ r, getRequestData ⟨"GET", q, body⟩ = Sum.inl r ∧ r.status = 400) ∧
    (∀ ev pv sv, q "e" = some ev → q "p" = some pv → q "s" = some sv →
      getRequestData ⟨"GET", q, body⟩ = Sum.inr ⟨ev, pv, sv⟩) := by
  constructor
  · intro hmiss
    rcases he : q "e" with _ | ev <;> rcases hp : q "p" with _ | pv <;>
      rcases hs : q "s" with _ | sv <;>
        simp only [getRequestData, he, hp, hs, reduceIte] <;>
        first
        | exact ⟨_, rfl, rfl⟩
        | simp_all
  · intro ev pv sv he hp hs
    simp [getRequestData, he, hp, hs]

/-- Witness for C4: one GET with everything absent, one GET whose three
parameters are all present as empty strings. -/
theorem claim_getRequestData_get_witness :
    (∃ r, getRequestData ⟨"GET", fun _ => none, none⟩ = Sum.inl r ∧ r.status = 400) ∧
    getRequestData ⟨"GET",
      (fun k => if k = "e" then some "" else if k = "p" then some "" else
        if k = "s" then some "" else none), none⟩ = Sum.inr ⟨"", "", ""⟩ := by
  constructor
  · exact (claim_getRequestData_get (fun _ => none) none).1 (Or.inl rfl)
  · exact (claim_getRequestData_get _ none).2 "" "" "" (by decide) (by decide) (by decide)

/-- C3: a POST island request whose JSON body carries a plaintext alias key
(`slots`, `componentExport` or `props`) gets a 400 response whose diagnostic
names the rejected plaintext field, and a POST body that fails to parse as
JSON gets a 400 response. -/
theorem claim_getRequestData_post_plaintext (q : String → Option String)
    (fs : List (String × String)) :
    (hasKey "slots" fs = true →
      ∃ r, getRequestData ⟨"POST", q, some fs⟩ = Sum.inl r ∧ r.status = 400 ∧
        ∃ x y, r.statusText = x ++ "plaintext slots" ++ y) ∧
    (hasKey "slots" fs = false → hasKey "componentExport" fs = true →
      ∃ r, getRequestData ⟨"POST", q, some fs⟩ = Sum.inl r ∧ r.status = 400 ∧
        ∃ x y, r.statusText = x ++ "plaintext componentExport" ++ y) ∧
    (hasKey "slots" fs = false → hasKey "componentExport" fs = false →
      hasKey "props" fs = true →
      ∃ r, getRequestData ⟨"POST", q, some fs⟩ = Sum.inl r ∧ r.status = 400 ∧
        ∃ x y, r.statusText = x ++ "plaintext props" ++ y) ∧
    (∃ r, getRequestData ⟨"POST", q, none⟩ = Sum.inl r ∧ r.status = 400) := by
  refine ⟨?_, ?_, ?_, ?_⟩
  · intro h
    refine ⟨⟨400, "Bad request: plaintext slots rejected, expected encryptedSlots"⟩,
      ?_, rfl, "Bad request: ", " rejected, expected encryptedSlots", rfl⟩
    simp [getRequestData, h]
  · intro h1 h2
    refine ⟨⟨400,
      "Bad request: plaintext componentExport rejected, expected encryptedComponentExport"⟩,
      ?_, rfl, "Bad request: ", " rejected, expected encryptedComponentExport", rfl⟩
    simp [getRequestData, h1, h2]
  · intro h1 h2 h3
    refine ⟨⟨400, "Bad request: plaintext props rejected, expected encryptedProps"⟩,
      ?_, rfl, "Bad request: ", " rejected, expected encryptedProps", rfl⟩
    simp [getRequestData, h1, h2, h3]
  · refine ⟨⟨400, "Bad request: malformed JSON body"⟩, ?_, rfl⟩
    simp [getRequestData]

/-- Witness for C3: a plaintext `slots` body, a plaintext `componentExport`
body, a plaintext `props` body, and a malformed body. -/
theorem claim_getRequestData_post_plaintext_witness :
    (∃ r, getRequestData ⟨"POST", fun _ => none, some [("slots", "x")]⟩ = Sum.inl r ∧
      r.status = 400 ∧ ∃ x y, r.statusText = x ++ "plaintext slots" ++ y) ∧
    (∃ r, getRequestData ⟨"POST", fun _ => none, some [("componentExport", "x")]⟩ =
      Sum.inl r ∧ r.status = 400 ∧
        ∃ x y, r.statusText = x ++ "plaintext componentExport" ++ y) ∧
    (∃ r, getRequestData ⟨"POST", fun _ => none, some [("props", "x")]⟩ = Sum.inl r ∧
      r.status = 400 ∧ ∃ x y, r.statusText = x ++ "plaintext props" ++ y) ∧
    (∃ r, getRequestData ⟨"POST", fun _ => none, none⟩ = Sum.inl r ∧ r.status = 400) := by
  refine ⟨?_, ?_, ?_, ?_⟩
  · exact (claim_getRequestData_post_plaintext (fun _ => none) [("slots", "x")]).1 (by decide)
  · exact (claim_getRequestData_post_plaintext (fun _ => none)
      [("componentExport", "x")]).2.1 (by decide) (by decide)
  · exact (claim_getRequestData_post_plaintext (fun _ => none)
      [("props", "x")]).2.2.1 (by decide) (by decide) (by decide)
  · exact (claim_getRequestData_post_plaintext (fun _ => none) []).2.2.2

/-- C5: the island encoder sums the encoded lengths of the three ciphertexts;
below 2048 characters it emits a GET transport (query parameters on the
island URL, no POST method and no body in the snippet), at or above 2048 it
emits a POST transport carrying the three fields in a JSON body. -/
theorem claim_transport_threshold (u a b c : String) :
    (a.length + b.length + c.length < 2048 →
      chooseTransport u a b c =
        ⟨"GET", u ++ "?e=" ++ a ++ "&p=" ++ b ++ "&s=" ++ c, none⟩ ∧
      getIslandContent u a b c =
        "replaceServerIsland(fetch(\"" ++
          (u ++ "?e=" ++ a ++ "&p=" ++ b ++ "&s=" ++ c) ++ "\"))") ∧
    (2048 ≤ a.length + b.length + c.length →
      chooseTransport u a b c = ⟨"POST", u, some (jsonBody a b c)⟩ ∧
      getIslandContent u a b c =
        "replaceServerIsland(fetch(\"" ++ u ++ "\", \x7b method: \"" ++ "POST" ++
          "\", body: JSON.stringify(" ++ jsonBody a b c ++ ") \x7d))") := by
  constructor
  · intro h
    have ht : chooseTransport u a b c =
        ⟨"GET", u ++ "?e=" ++ a ++ "&p=" ++ b ++ "&s=" ++ c, none⟩ := by
      rw [chooseTransport, if_pos h]
    exact ⟨ht, by rw [getIslandContent, ht]⟩
  · intro h
    have ht : chooseTransport u a b c = ⟨"POST", u, some (jsonBody a b c)⟩ := by
      rw [chooseTransport, if_neg (by omega)]
    exact ⟨ht, by rw [getIslandContent, ht]⟩

/-- Witness for C5: a small payload rides a GET, a 2048-character payload
rides a POST. -/
theorem claim_transport_threshold_witness :
    chooseTransport "/u" "x" "" "" =
      ⟨"GET", "/u" ++ "?e=" ++ "x" ++ "&p=" ++ "" ++ "&s=" ++ "", none⟩ ∧
    chooseTransport "/u" bigPayload "" "" =
      ⟨"POST", "/u", some (jsonBody bigPayload "" "")⟩ := by
  constructor
  · exact ((claim_transport_threshold "/u" "x" "" "").1 (by decide)).1
  · refine ((claim_transport_threshold "/u" bigPayload "" "").2 ?_).1
    have hlen : bigPayload.length = 2048 := by
      rw [bigPayload,
        show (String.mk (List.replicate 2048 'x')).length =
          (List.replicate 2048 'x').length from rfl,
        List.length_replicate]
    rw [hlen]
    simp

/-- C10: the emitted client runtime is a script-wrapped source whose inner
text (between the opening tag and the final closing tag) contains no
occurrence of the closing-script sequence, while still carrying the
`replaceServerIsland` entry point. -/
theorem claim_runtime_no_script_close :
    ∃ inner : String, renderServerIslandRuntime = "<script>" ++ inner ++ "</script>" ∧
      listContains ("</script").data inner.data = false ∧
      listContains ("replaceServerIsland").data inner.data = true :=
  ⟨String.mk (escapeScriptClose serverIslandRuntimeSource.data), rfl, by decide, by decide⟩

theorem isPrefixOf_subset : ∀ (p l : List Char), p.isPrefixOf l = true → ∀ c ∈ p, c ∈ l := by
  intro p
  induction p with
  | nil =>
    intro l _ c hc
    simp at hc
  | cons a as ih =>
    intro l hp c hc
    cases l with
    | nil => simp [List.isPrefixOf] at hp
    | cons b bs =>
      simp only [List.isPrefixOf, Bool.and_eq_true, beq_iff_eq] at hp
      obtain ⟨hab, hrest⟩ := hp
      rcases List.mem_cons.mp hc with rfl | hc2
      · rw [hab]
        exact List.mem_cons_self _ _
      · exact List.mem_cons_of_mem _ (ih bs hrest c hc2)

theorem listContains_subset : ∀ (l pat : List Char),
    listContains pat l = true → ∀ c ∈ pat, c ∈ l := by
  intro l
  induction l with
  | nil =>
    intro pat h c hc
    simp only [listContains, List.isEmpty_iff] at h
    subst h
    simp at hc
  | cons b bs ih =>
    intro pat h c hc
    simp only [listContains, Bool.or_eq_true] at h
    rcases h with h | h
    · exact isPrefixOf_subset pat (b :: bs) h c hc
    · exact List.mem_cons_of_mem _ (ih pat h c hc)

theorem encryptString_le2 (key iv : Nat) (p : String) :
    ∀ d ∈ encryptString key iv p, d ≤ 2 := by
  intro d hd
  rw [encryptString] at hd
  simp only [encNat, List.append_assoc, List.mem_append, List.mem_singleton] at hd
  rcases hd with h | h | h | h | h | h
  · have := natDigits_le_one iv d h
    omega
  · omega
  · have := natDigits_le_one _ d h
    omega
  · omega
  · have := natDigits_le_one _ d h
    omega
  · omega

theorem renderChars_chars (pl : List Nat) (hpl : ∀ d ∈ pl, d ≤ 2) :
    ∀ ch ∈ (renderChars pl).data, ch ∈ scaffoldChars := by
  intro ch hch
  have hch2 : ch ∈ pl.map digitChar := hch
  rcases List.mem_map.mp hch2 with ⟨d, hd, rfl⟩
  have hd2 := hpl d hd
  interval_cases d <;> decide

theorem getIslandContent_get_eq (u a b c : String)
    (h : a.length + b.length + c.length < 2048) :
    getIslandContent u a b c =
      "replaceServerIsland(fetch(\"" ++
        (u ++ "?e=" ++ a ++ "&p=" ++ b ++ "&s=" ++ c) ++ "\"))" := by
  have ht : chooseTransport u a b c =
      ⟨"GET", u ++ "?e=" ++ a ++ "&p=" ++ b ++ "&s=" ++ c, none⟩ := by
    rw [chooseTransport, if_pos h]
  rw [getIslandContent, ht]

theorem getIslandContent_post_eq (u a b c : String)
    (h : ¬ a.length + b.length + c.length < 2048) :
    getIslandContent u a b c =
      "replaceServerIsland(fetch(\"" ++ u ++ "\", \x7b method: \"" ++ "POST" ++
        "\", body: JSON.stringify(" ++ jsonBody a b c ++ ") \x7d))" := by
  have ht : chooseTransport u a b c = ⟨"POST", u, some (jsonBody a b c)⟩ := by
    rw [chooseTransport, if_neg h]
  rw [getIslandContent, ht]

theorem getIslandContent_chars (u a b c : String) :
    ∀ ch ∈ (getIslandContent u a b c).data,
      ch ∈ scaffoldChars ∨ ch ∈ u.data ∨ ch ∈ a.data ∨ ch ∈ b.data ∨ ch ∈ c.data := by
  intro ch hch
  have t1 : ∀ x ∈ ("replaceServerIsland(fetch(\"" : String).data, x ∈ scaffoldChars := by
    decide
  by_cases h : a.length + b.length + c.length < 2048
  · rw [getIslandContent_get_eq u a b c h] at hch
    have t2 : ∀ x ∈ ("?e=" : String).data, x ∈ scaffoldChars := by decide
    have t3 : ∀ x ∈ ("&p=" : String).data, x ∈ scaffoldChars := by decide
    have t4 : ∀ x ∈ ("&s=" : String).data, x ∈ scaffoldChars := by decide
    have t5 : ∀ x ∈ ("\"))" : String).data, x ∈ scaffoldChars := by decide
    simp only [String.data_append, List.append_assoc, List.mem_append] at hch
    rcases hch with h1 | h1 | h1 | h1 | h1 | h1 | h1 | h1 | h1
    · exact Or.inl (t1 ch h1)
    · exact Or.inr (Or.inl h1)
    · exact Or.inl (t2 ch h1)
    · exact Or.inr (Or.inr (Or.inl h1))
    · exact Or.inl (t3 ch h1)
    · exact Or.inr (Or.inr (Or.inr (Or.inl h1)))
    · exact Or.inl (t4 ch h1)
    · exact Or.inr (Or.inr (Or.inr (Or.inr h1)))
    · exact Or.inl (t5 ch h1)
  · rw [getIslandContent_post_eq u a b c h, jsonBody] at hch
    have t6 : ∀ x ∈ ("\", \x7b method: \"" : String).data, x ∈ scaffoldChars := by decide
    have t7 : ∀ x ∈ ("POST" : String).data, x ∈ scaffoldChars := by decide
    have t8 : ∀ x ∈ ("\", body: JSON.stringify(" : String).data, x ∈ scaffoldChars := by
      decide
    have t9 : ∀ x ∈ ("\x7b\"encryptedComponentExport\":\"" : String).data,
        x ∈ scaffoldChars := by decide
    have t10 : ∀ x ∈ ("\",\"encryptedProps\":\"" : String).data, x ∈ scaffoldChars := by
      decide
    have t11 : ∀ x ∈ ("\",\"encryptedSlots\":\"" : String).data, x ∈ scaffoldChars := by
      decide
    have t12 : ∀ x ∈ ("\"\x7d" : String).data, x ∈ scaffoldChars := by decide
    have t13 : ∀ x ∈ (") \x7d))" : String).data, x ∈ scaffoldChars := by decide
    simp only [String.data_append, List.append_assoc, List.mem_append] at hch
    rcases hch with h1 | h1 | h1 | h1 | h1 | h1 | h1 | h1 | h1 | h1 | h1 | h1 | h1
    · exact Or.inl (t1 ch h1)
    · exact Or.inr (Or.inl h1)
    · exact Or.inl (t6 ch h1)
    · exact Or.inl (t7 ch h1)
    · exact Or.inl (t8 ch h1)
    · exact Or.inl (t9 ch h1)
    · exact Or.inr (Or.inr (Or.inl h1))
    · exact Or.inl (t10 ch h1)
    · exact Or.inr (Or.inr (Or.inr (Or.inl h1)))
    · exact Or.inl (t11 ch h1)
    · exact Or.inr (Or.inr (Or.inr (Or.inr h1)))
    · exact Or.inl (t12 ch h1)
    · exact Or.inl (t13 ch h1)

theorem renderServerIsland_chars (key iv : Nat) (base name islandId cexp props : String)
    (slots : List (String × String)) :
    ∀ ch ∈ (renderServerIsland key iv base name islandId cexp props slots).data,
      ch ∈ scaffoldChars ∨ ch ∈ ((List.lookup "fallback" slots).getD "").data ∨
        ch ∈ base.data ∨ ch ∈ name.data ∨ ch ∈ islandId.data := by
  intro ch hch
  rw [renderServerIsland] at hch
  have tm : ∀ x ∈ ("<!--server-island-start-->" : String).data, x ∈ scaffoldChars := by
    decide
  have t2 : ∀ x ∈ ("<script data-island-id=\"" : String).data, x ∈ scaffoldChars := by
    decide
  have t3 : ∀ x ∈ ("\">" : String).data, x ∈ scaffoldChars := by decide
  have t4 : ∀ x ∈ ("</script>" : String).data, x ∈ scaffoldChars := by decide
  have turl : ∀ x ∈ ("/_server-islands/" : String).data, x ∈ scaffoldChars := by decide
  simp only [String.data_append, List.append_assoc, List.mem_append] at hch
  rcases hch with h | h | h | h | h | h | h
  · exact Or.inl (tm ch h)
  · exact Or.inr (Or.inl h)
  · exact Or.inl (t2 ch h)
  · exact Or.inr (Or.inr (Or.inr (Or.inr h)))
  · exact Or.inl (t3 ch h)
  · rcases getIslandContent_chars _ _ _ _ ch h with h1 | h1 | h1 | h1 | h1
    · exact Or.inl h1
    · simp only [String.data_append, List.append_assoc, List.mem_append] at h1
      rcases h1 with h2 | h2 | h2
      · exact Or.inr (Or.inr (Or.inl h2))
      · exact Or.inl (turl ch h2)
      · exact Or.inr (Or.inr (Or.inr (Or.inl h2)))
    · exact Or.inl (renderChars_chars _ (encryptString_le2 _ _ _) ch h1)
    · exact Or.inl (renderChars_chars _ (encryptString_le2 _ _ _) ch h1)
    · exact Or.inl (renderChars_chars _ (encryptString_le2 _ _ _) ch h1)
  · exact Or.inl (t4 ch h)

set_option maxRecDepth 40000 in
/-- C6 counterexample: as literally stated the claim fails - a non-fallback
slot whose content is the single character `r` does appear in the initial
render output, because the static start marker itself contains that
character. -/
theorem claim_render_slots_counterexample :
    ("c", "r") ∈ [(("c" : String), ("r" : String))] ∧ ("c" : String) ≠ "fallback" ∧
    listContains ("r" : String).data
      (renderServerIsland 0 0 "" "" "" "" "" [("c", "r")]).data = true := by
  refine ⟨by decide, by decide, ?_⟩
  decide

/-- C6 (amended): the fallback slot content appears inline in the initial
render output, and the content of a non-fallback slot never appears in the
output provided it is distinguishable from the surroundings - it contains at
least one character that occurs neither in the static scaffolding and
ciphertext alphabet, nor in the fallback content, base path, island name or
island id. -/
theorem claim_render_slots_amended (key iv : Nat)
    (base name islandId cexp props : String) (slots : List (String × String))
    (sname scontent : String) (ch : Char)
    (_hmem : (sname, scontent) ∈ slots) (_hnf : sname ≠ "fallback")
    (hch : ch ∈ scontent.data) (h1 : ch ∉ scaffoldChars)
    (h2 : ch ∉ ((List.lookup "fallback" slots).getD "").data)
    (h3 : ch ∉ base.data) (h4 : ch ∉ name.data) (h5 : ch ∉ islandId.data) :
    (∃ pre post, renderServerIsland key iv base name islandId cexp props slots =
      pre ++ ((List.lookup "fallback" slots).getD "") ++ post) ∧
    listContains scontent.data
      (renderServerIsland key iv base name islandId cexp props slots).data = false := by
  constructor
  · refine ⟨"<!--server-island-start-->", ?_, ?_⟩
    · exact "<script data-island-id=\"" ++ islandId ++ "\">" ++
        getIslandContent (base ++ "/_server-islands/" ++ name)
          (renderChars (encryptString key iv cexp))
          (renderChars (encryptString key (iv + 1) props))
          (renderChars (encryptString key (iv + 2)
            (serializeSlots (slots.filter (fun pr => pr.1 != "fallback"))))) ++
        "</script>"
    · rw [renderServerIsland]
  · by_contra hc
    rw [Bool.not_eq_false] at hc
    have hin := listContains_subset _ _ hc ch hch
    rcases renderServerIsland_chars key iv base name islandId cexp props slots ch hin with
      h | h | h | h | h
    · exact h1 h
    · exact h2 h
    · exact h3 h
    · exact h4 h
    · exact h5 h

/-- Witness for the amended C6 at a concrete island whose non-fallback slot
content carries a tilde, a character foreign to the scaffolding. -/
theorem claim_render_slots_amended_witness :
    (∃ pre post, renderServerIsland 0 0 "" "" "" "" "" [("c", "~")] =
      pre ++ ((List.lookup "fallback" [(("c" : String), ("~" : String))]).getD "") ++ post) ∧
    listContains ("~" : String).data
      (renderServerIsland 0 0 "" "" "" "" "" [("c", "~")]).data = false :=
  claim_render_slots_amended 0 0 "" "" "" "" "" [("c", "~")] "c" "~" '~'
    (by decide) (by decide) (by decide) (by decide) (by decide) (by decide) (by decide)
    (by decide)
